import Mathlib

/-!
Verification of the fuzzy text-matching and ranking engine of this
repository (functions `levenshtein_distance`, `fuzzy_match` and
`fuzzy_search` of `main.py`).

Shallow embedding conventions:
* Python strings are `List Char`; `str.lower()` is `List.map Char.toLower`
  (the source only compares case-folded text, and the engine's scenarios
  are ASCII, where Python's `lower` and `Char.toLower` agree).
* Python floats are modelled by exact rationals `ℚ`; the source's scoring
  constants 0.3, 0.7, 0.9 are the exact rationals 3/10, 7/10, 9/10.
* The rolling-row dynamic program of `levenshtein_distance` is embedded
  line by line (`rowGo`, `levLoop`, `levRun`); the bounded argument swap of
  the source is the single conditional swap in `levenshtein_distance`.
* `lev` below is NOT part of the embedding: it is the textbook recursive
  edit distance, used as a specification against which the rolling-row
  program is proved correct (`levenshtein_eq_lev`).
-/

/-- Cost of substituting character `c1` by `c2`: the Python summand
`(c1 != c2)`. -/
def subCost (c1 c2 : Char) : Nat :=
  if c1 = c2 then 0 else 1

/-- Textbook recursive Levenshtein distance on character lists, the
specification for the rolling-row program of the source. -/
def lev : List Char → List Char → Nat
  | [], ys => ys.length
  | _ :: xs, [] => xs.length + 1
  | x :: xs, y :: ys =>
      min (lev xs (y :: ys) + 1) (min (lev (x :: xs) ys + 1) (lev xs ys + subCost x y))
termination_by xs ys => xs.length + ys.length
decreasing_by
  all_goals (simp only [List.length_cons]; omega)

/-- `Edits a b n` holds when some alignment transforms `a` into `b` using
`n` single-character edits (deletions, insertions, substitutions). -/
inductive Edits : List Char → List Char → Nat → Prop
  | nil : Edits [] [] 0
  | keep : ∀ (x : Char) (xs ys : List Char) (n : Nat),
      Edits xs ys n → Edits (x :: xs) (x :: ys) n
  | subst : ∀ (x y : Char) (xs ys : List Char) (n : Nat),
      Edits xs ys n → Edits (x :: xs) (y :: ys) (n + 1)
  | del : ∀ (x : Char) (xs ys : List Char) (n : Nat),
      Edits xs ys n → Edits (x :: xs) ys (n + 1)
  | ins : ∀ (y : Char) (xs ys : List Char) (n : Nat),
      Edits xs ys n → Edits xs (y :: ys) (n + 1)

/-- Inner loop of the dynamic program (`for j, c2 in enumerate(s2)`): walks
the triples `(c2, previous_row[j], previous_row[j+1])` carrying the value
`current_row[j]` appended last, and emits the rest of the current row. -/
def rowGo (c1 : Char) : List (Char × Nat × Nat) → Nat → List Nat
  | [], _ => []
  | (c2, pj, pj1) :: rest, last =>
      min (pj1 + 1) (min (last + 1) (pj + subCost c1 c2)) ::
        rowGo c1 rest (min (pj1 + 1) (min (last + 1) (pj + subCost c1 c2)))

/-- Outer loop of the dynamic program (`for i, c1 in enumerate(s1)`):
builds `current_row = [i+1] ++ ...` from `previous_row` and recurses. -/
def levLoop (s2 : List Char) : List Char → Nat → List Nat → List Nat
  | [], _, prev => prev
  | c1 :: rest, i, prev =>
      levLoop s2 rest (i + 1)
        ((i + 1) :: rowGo c1 (s2.zip (prev.zip prev.tail)) (i + 1))

/-- Last element of a list with default, the Python indexing
`previous_row[-1]`. -/
def lastD : List Nat → Nat → Nat
  | [], d => d
  | a :: l, _ => lastD l a

/-- The dynamic program run on `(s1, s2)` exactly as written in the source
after the conditional swap: early return `len(s1)` when `s2` is empty,
otherwise iterate rows starting from `range(len(s2)+1)`. -/
def levRun (s1 s2 : List Char) : Nat :=
  if s2.length = 0 then s1.length
  else lastD (levLoop s2 s1 0 (List.range (s2.length + 1))) 0

/-- `levenshtein_distance` from the source: a single conditional swap puts
the longer string first, then the dynamic program runs. -/
def levenshtein_distance (s1 s2 : List Char) : Nat :=
  if s1.length < s2.length then levRun s2 s1 else levRun s1 s2

/-- Reference contents of a row suffix: starting after the consumed part of
`s2` (held reversed in `qr`), entry by entry the edit distances of the
reversed processed prefix `pr` against ever longer reversed prefixes of
`s2`. -/
def refRow (pr : List Char) : List Char → List Char → List Nat
  | _, [] => []
  | qr, c2 :: u => lev pr (c2 :: qr) :: refRow pr (c2 :: qr) u

/-- Case folding: Python `str.lower()` on the engine's ASCII data. -/
def fold (s : List Char) : List Char :=
  s.map Char.toLower

/-- `startsWith p t`: `p` occurs at the very beginning of `t`. -/
def startsWith : List Char → List Char → Bool
  | [], _ => true
  | _ :: _, [] => false
  | a :: p, b :: t => a == b && startsWith p t

/-- `isSub p t`: Python's substring test `p in t`. -/
def isSub (p : List Char) : List Char → Bool
  | [] => startsWith p []
  | c :: t => startsWith p (c :: t) || isSub p t

/-- Python `str.split()` whitespace (the ASCII whitespace characters). -/
def isWs (c : Char) : Bool :=
  c == ' ' || c == '\t' || c == '\n' || c == '\x0b' || c == '\x0c' || c == '\r'

/-- Worker for `splitWs`: `acc` holds the characters of the current token,
reversed. -/
def splitWsAux : List Char → List Char → List (List Char)
  | [], acc => if acc.isEmpty then [] else [acc.reverse]
  | c :: t, acc =>
      if isWs c then
        (if acc.isEmpty then splitWsAux t [] else acc.reverse :: splitWsAux t [])
      else splitWsAux t (c :: acc)

/-- Python `text.split()`: whitespace-delimited tokens, empties dropped. -/
def splitWs (t : List Char) : List (List Char) :=
  splitWsAux t []

/-- The word loop of `fuzzy_match` (main.py 52-59): folds the running
maximum of the ratios `1 - distance/max_len` over the words at least as
long as the query. -/
def maxScoreLoop (q : List Char) : List (List Char) → ℚ → ℚ
  | [], m => m
  | w :: ws, m =>
      if q.length ≤ w.length then
        maxScoreLoop q ws
          (if m < 1 - (levenshtein_distance q w : ℚ) / ((max q.length w.length : Nat) : ℚ)
           then 1 - (levenshtein_distance q w : ℚ) / ((max q.length w.length : Nat) : ℚ)
           else m)
      else maxScoreLoop q ws m

/-- `fuzzy_match` from the source: fold both strings, whole-text substring
gives 1, a token containing the query gives 9/10, otherwise the best
word-level ratio if it reaches `1 - threshold`, else 0. -/
def fuzzy_match (query text : List Char) (threshold : ℚ) : ℚ :=
  if isSub (fold query) (fold text) then 1
  else if (splitWs (fold text)).any (fun w => isSub (fold query) w) then 9/10
  else if 1 - threshold ≤ maxScoreLoop (fold query) (splitWs (fold text)) 0
    then maxScoreLoop (fold query) (splitWs (fold text)) 0
  else 0

/-- A record as the engine sees it (spec §3): the scorable fields `name`
and optional `description`, plus an opaque identity `id` passed through
unchanged. -/
structure Record where
  id : Nat
  name : List Char
  description : Option (List Char)
deriving DecidableEq

/-- The aggregate score of main.py 69-71:
`total = max(name_score, desc_score * 0.7)`, description defaulting to
empty text. -/
def totalScore (query : List Char) (threshold : ℚ) (group : Record) : ℚ :=
  max (fuzzy_match query group.name threshold)
    (fuzzy_match query (group.description.getD []) threshold * (7/10))

/-- Loop body of `fuzzy_search` (main.py 68-74): the record paired with its
aggregate score when that score is positive, nothing otherwise. -/
def scoreEntry (query : List Char) (threshold : ℚ) (group : Record) :
    Option (Record × ℚ) :=
  if 0 < totalScore query threshold group
  then some (group, totalScore query threshold group) else none

/-- Insert into a list sorted by descending score, after every entry whose
score is at least as large: the insertion step of a stable descending
sort. -/
def ordIns (x : Record × ℚ) : List (Record × ℚ) → List (Record × ℚ)
  | [] => [x]
  | y :: l => if y.2 ≤ x.2 then x :: y :: l else y :: ordIns x l

/-- Stable sort by descending score. Python's
`results.sort(key=lambda x: x[1], reverse=True)` is a stable descending
sort by the second component, and a stable sort is determined uniquely by
its comparison, so insertion sort embeds it faithfully (sortedness:
`sortD_pairwise`; stability: `sortD_filter_eq`). -/
def sortD : List (Record × ℚ) → List (Record × ℚ)
  | [] => []
  | x :: l => ordIns x (sortD l)

/-- `fuzzy_search` from the source: score every record, keep the positive
ones, sort by descending score, return the records. -/
def fuzzy_search (query : List Char) (groups : List Record) (threshold : ℚ) :
    List Record :=
  ((sortD (groups.filterMap (scoreEntry query threshold))).map Prod.fst)

@[simp] lemma lev_nil_left (ys : List Char) : lev [] ys = ys.length := by
  simp [lev]

@[simp] lemma lev_cons_nil (x : Char) (xs : List Char) :
    lev (x :: xs) [] = xs.length + 1 := by
  simp [lev]

lemma lev_cons_cons (x y : Char) (xs ys : List Char) :
    lev (x :: xs) (y :: ys) =
      min (lev xs (y :: ys) + 1)
        (min (lev (x :: xs) ys + 1) (lev xs ys + subCost x y)) := by
  simp [lev]

@[simp] lemma lev_nil_right (xs : List Char) : lev xs [] = xs.length := by
  cases xs <;> simp

@[simp] lemma subCost_self (x : Char) : subCost x x = 0 := by
  simp [subCost]

lemma subCost_le_one (x y : Char) : subCost x y ≤ 1 := by
  unfold subCost
  split <;> omega

lemma subCost_comm (x y : Char) : subCost x y = subCost y x := by
  unfold subCost
  by_cases h : x = y
  · subst h; simp
  · rw [if_neg h, if_neg (fun hyx : y = x => h hyx.symm)]

/-- The edit distance is symmetric. -/
lemma lev_symm (a : List Char) : ∀ b : List Char, lev a b = lev b a := by
  induction a with
  | nil => intro b; simp
  | cons x xs ihx =>
      intro b
      induction b with
      | nil => simp
      | cons y ys ihy =>
          rw [lev_cons_cons, lev_cons_cons, ihx (y :: ys), ihy, ihx ys,
            subCost_comm]
          omega

/-- The edit distance is at most the length of the longer string. -/
lemma lev_le_max (a : List Char) : ∀ b : List Char, lev a b ≤ max a.length b.length := by
  induction a with
  | nil => intro b; simp
  | cons x xs ihx =>
      intro b
      cases b with
      | nil => simp
      | cons y ys =>
          have h1 := ihx ys
          have h2 := subCost_le_one x y
          rw [lev_cons_cons]
          simp only [List.length_cons]
          omega

lemma lev_le_del (x : Char) (xs ys : List Char) :
    lev (x :: xs) ys ≤ lev xs ys + 1 := by
  cases ys with
  | nil => simp
  | cons y ys => rw [lev_cons_cons]; omega

lemma lev_le_ins (y : Char) (xs ys : List Char) :
    lev xs (y :: ys) ≤ lev xs ys + 1 := by
  cases xs with
  | nil => simp
  | cons x xs => rw [lev_cons_cons]; omega

lemma lev_le_keep (x : Char) (xs ys : List Char) :
    lev (x :: xs) (x :: ys) ≤ lev xs ys := by
  rw [lev_cons_cons]
  simp only [subCost_self, Nat.add_zero]
  omega

lemma lev_le_subst (x y : Char) (xs ys : List Char) :
    lev (x :: xs) (y :: ys) ≤ lev xs ys + 1 := by
  have := subCost_le_one x y
  rw [lev_cons_cons]
  omega

/-- The edit distance is a lower bound on the cost of any alignment. -/
lemma lev_le_of_edits {a b : List Char} {n : Nat} (E : Edits a b n) :
    lev a b ≤ n := by
  induction E with
  | nil => simp
  | keep x xs ys n E ih => exact le_trans (lev_le_keep _ _ _) ih
  | subst x y xs ys n E ih => exact le_trans (lev_le_subst _ _ _ _) (by omega)
  | del x xs ys n E ih => exact le_trans (lev_le_del _ _ _) (by omega)
  | ins y xs ys n E ih => exact le_trans (lev_le_ins _ _ _) (by omega)

lemma edits_nil_left : ∀ b : List Char, Edits [] b b.length := by
  intro b
  induction b with
  | nil => exact Edits.nil
  | cons y ys ih => exact Edits.ins y _ _ _ ih

lemma edits_nil_right : ∀ a : List Char, Edits a [] a.length := by
  intro a
  induction a with
  | nil => exact Edits.nil
  | cons x xs ih => exact Edits.del x _ _ _ ih

/-- An optimal alignment exists: the edit distance is realised by `Edits`. -/
lemma edits_of_lev (a : List Char) : ∀ b : List Char, Edits a b (lev a b) := by
  induction a with
  | nil => intro b; rw [lev_nil_left]; exact edits_nil_left b
  | cons x xs ihx =>
      intro b
      induction b with
      | nil => rw [lev_nil_right]; exact edits_nil_right _
      | cons y ys ihy =>
          have hsplit : lev (x :: xs) (y :: ys) = lev xs (y :: ys) + 1 ∨
              lev (x :: xs) (y :: ys) = lev (x :: xs) ys + 1 ∨
              lev (x :: xs) (y :: ys) = lev xs ys + subCost x y := by
            rw [lev_cons_cons]; omega
          rcases hsplit with h | h | h
          · rw [h]; exact Edits.del x _ _ _ (ihx (y :: ys))
          · rw [h]; exact Edits.ins y _ _ _ ihy
          · by_cases hxy : x = y
            · subst hxy
              rw [h, subCost_self, Nat.add_zero]
              exact Edits.keep x _ _ _ (ihx ys)
            · rw [h, show subCost x y = 1 from by simp [subCost, hxy]]
              exact Edits.subst x y _ _ _ (ihx ys)

/-- Alignments compose: an alignment `a → b` of cost `m` and an alignment
`b → c` of cost `n` yield an alignment `a → c` of cost at most `m + n`. -/
lemma edits_compose : ∀ (N : Nat) (a b c : List Char) (m n : Nat),
    a.length + b.length + c.length ≤ N → Edits a b m → Edits b c n →
    ∃ k, k ≤ m + n ∧ Edits a c k := by
  intro N
  induction N with
  | zero =>
      intro a b c m n hlen E1 E2
      have ha : a = [] := by
        cases a with
        | nil => rfl
        | cons x xs => simp at hlen
      have hb : b = [] := by
        cases b with
        | nil => rfl
        | cons x xs => subst ha; simp at hlen
      have hc : c = [] := by
        cases c with
        | nil => rfl
        | cons x xs => subst ha; subst hb; simp at hlen
      subst ha; subst hb; subst hc
      cases E1
      cases E2
      exact ⟨0, by omega, Edits.nil⟩
  | succ N ih =>
      intro a b c m n hlen E1 E2
      cases E1 with
      | nil => exact ⟨n, by omega, E2⟩
      | keep x xs ys m' E1' =>
          cases E2 with
          | keep z zs cs n' E2' =>
              obtain ⟨k, hk, E⟩ := ih xs ys cs m n
                (by simp only [List.length_cons] at hlen ⊢; omega) E1' E2'
              exact ⟨k, by omega, Edits.keep _ _ _ _ E⟩
          | subst z e zs cs n' E2' =>
              obtain ⟨k, hk, E⟩ := ih xs ys cs m n'
                (by simp only [List.length_cons] at hlen ⊢; omega) E1' E2'
              exact ⟨k + 1, by omega, Edits.subst _ _ _ _ _ E⟩
          | del z zs cs n' E2' =>
              obtain ⟨k, hk, E⟩ := ih xs ys c m n'
                (by simp only [List.length_cons] at hlen ⊢; omega) E1' E2'
              exact ⟨k + 1, by omega, Edits.del _ _ _ _ E⟩
          | ins e zs cs n' E2' =>
              obtain ⟨k, hk, E⟩ := ih (x :: xs) (x :: ys) cs m n'
                (by simp only [List.length_cons] at hlen ⊢; omega)
                (Edits.keep _ _ _ _ E1') E2'
              exact ⟨k + 1, by omega, Edits.ins _ _ _ _ E⟩
      | subst x y xs ys m' E1' =>
          cases E2 with
          | keep z zs cs n' E2' =>
              obtain ⟨k, hk, E⟩ := ih xs ys cs m' n
                (by simp only [List.length_cons] at hlen ⊢; omega) E1' E2'
              exact ⟨k + 1, by omega, Edits.subst _ _ _ _ _ E⟩
          | subst z e zs cs n' E2' =>
              obtain ⟨k, hk, E⟩ := ih xs ys cs m' n'
                (by simp only [List.length_cons] at hlen ⊢; omega) E1' E2'
              exact ⟨k + 1, by omega, Edits.subst _ _ _ _ _ E⟩
          | del z zs cs n' E2' =>
              obtain ⟨k, hk, E⟩ := ih xs ys c m' n'
                (by simp only [List.length_cons] at hlen ⊢; omega) E1' E2'
              exact ⟨k + 1, by omega, Edits.del _ _ _ _ E⟩
          | ins e zs cs n' E2' =>
              obtain ⟨k, hk, E⟩ := ih (x :: xs) (y :: ys) cs (m' + 1) n'
                (by simp only [List.length_cons] at hlen ⊢; omega)
                (Edits.subst _ _ _ _ _ E1') E2'
              exact ⟨k + 1, by omega, Edits.ins _ _ _ _ E⟩
      | del x xs ys m' E1' =>
          obtain ⟨k, hk, E⟩ := ih xs b c m' n
            (by simp only [List.length_cons] at hlen ⊢; omega) E1' E2
          exact ⟨k + 1, by omega, Edits.del _ _ _ _ E⟩
      | ins d axs ys m' E1' =>
          cases E2 with
          | keep z zs cs n' E2' =>
              obtain ⟨k, hk, E⟩ := ih a ys cs m' n
                (by simp only [List.length_cons] at hlen ⊢; omega) E1' E2'
              exact ⟨k + 1, by omega, Edits.ins _ _ _ _ E⟩
          | subst z e zs cs n' E2' =>
              obtain ⟨k, hk, E⟩ := ih a ys cs m' n'
                (by simp only [List.length_cons] at hlen ⊢; omega) E1' E2'
              exact ⟨k + 1, by omega, Edits.ins _ _ _ _ E⟩
          | del z zs cs n' E2' =>
              obtain ⟨k, hk, E⟩ := ih a ys c m' n'
                (by simp only [List.length_cons] at hlen ⊢; omega) E1' E2'
              exact ⟨k, by omega, E⟩
          | ins e zs cs n' E2' =>
              obtain ⟨k, hk, E⟩ := ih a (d :: ys) cs (m' + 1) n'
                (by simp only [List.length_cons] at hlen ⊢; omega)
                (Edits.ins _ _ _ _ E1') E2'
              exact ⟨k + 1, by omega, Edits.ins _ _ _ _ E⟩

/-- Triangle inequality for the recursive edit distance. -/
lemma lev_triangle (a b c : List Char) : lev a c ≤ lev a b + lev b c := by
  obtain ⟨k, hk, E⟩ := edits_compose (a.length + b.length + c.length) a b c
    (lev a b) (lev b c) le_rfl (edits_of_lev a b) (edits_of_lev b c)
  exact le_trans (lev_le_of_edits E) hk

/-! ## The rolling-row dynamic program of `levenshtein_distance` (main.py 22-37) -/

lemma rowGo_spec (c1 : Char) (pr : List Char) (u : List Char) :
    ∀ qr : List Char,
      rowGo c1 (u.zip ((lev pr qr :: refRow pr qr u).zip (refRow pr qr u)))
          (lev (c1 :: pr) qr)
        = refRow (c1 :: pr) qr u := by
  induction u with
  | nil => intro qr; simp [rowGo, refRow]
  | cons c2 u' ih =>
      intro qr
      show rowGo c1
          ((c2 :: u').zip ((lev pr qr :: refRow pr qr (c2 :: u')).zip
            (refRow pr qr (c2 :: u')))) (lev (c1 :: pr) qr)
          = refRow (c1 :: pr) qr (c2 :: u')
      rw [show refRow pr qr (c2 :: u') = lev pr (c2 :: qr) :: refRow pr (c2 :: qr) u'
        from rfl]
      rw [show refRow (c1 :: pr) qr (c2 :: u')
          = lev (c1 :: pr) (c2 :: qr) :: refRow (c1 :: pr) (c2 :: qr) u' from rfl]
      simp only [List.zip_cons_cons, rowGo]
      rw [← lev_cons_cons c1 c2 pr qr]
      have h := ih (c2 :: qr)
      simp only [List.zip] at h
      rw [h]

lemma levLoop_spec (s2 : List Char) (rest : List Char) :
    ∀ pr : List Char,
      levLoop s2 rest pr.length (lev pr [] :: refRow pr [] s2)
        = lev (rest.reverse ++ pr) [] :: refRow (rest.reverse ++ pr) [] s2 := by
  induction rest with
  | nil => intro pr; simp [levLoop]
  | cons c1 rest' ih =>
      intro pr
      show levLoop s2 rest' (pr.length + 1)
          ((pr.length + 1) :: rowGo c1
            (s2.zip ((lev pr [] :: refRow pr [] s2).zip
              ((lev pr [] :: refRow pr [] s2).tail))) (pr.length + 1))
        = _
      have hlen : pr.length + 1 = lev (c1 :: pr) [] := by simp
      have hrow := rowGo_spec c1 pr s2 []
      rw [← hlen] at hrow
      rw [List.tail_cons, hrow]
      nth_rewrite 2 [hlen]
      have h := ih (c1 :: pr)
      simp only [List.length_cons] at h
      rw [h]
      simp [List.append_assoc]

lemma refRow_nil_pr (u : List Char) :
    ∀ qr : List Char, refRow [] qr u = List.range' (qr.length + 1) u.length := by
  induction u with
  | nil => intro qr; simp [refRow]
  | cons c2 u' ih =>
      intro qr
      show lev [] (c2 :: qr) :: refRow [] (c2 :: qr) u' = _
      rw [ih (c2 :: qr)]
      simp only [lev_nil_left, List.length_cons]
      rw [List.range'_succ]

lemma range_eq_row (s2 : List Char) :
    List.range (s2.length + 1) = lev [] [] :: refRow [] [] s2 := by
  rw [List.range_eq_range', List.range'_succ, refRow_nil_pr s2 []]
  simp

lemma lastD_refRow (pr : List Char) (u : List Char) :
    ∀ (qr : List Char) (d : Nat),
      lastD (lev pr qr :: refRow pr qr u) d = lev pr (u.reverse ++ qr) := by
  induction u with
  | nil => intro qr d; simp [lastD, refRow]
  | cons c2 u' ih =>
      intro qr d
      show lastD (lev pr qr :: lev pr (c2 :: qr) :: refRow pr (c2 :: qr) u') d = _
      rw [show lastD (lev pr qr :: lev pr (c2 :: qr) :: refRow pr (c2 :: qr) u') d
          = lastD (lev pr (c2 :: qr) :: refRow pr (c2 :: qr) u') (lev pr qr) from rfl]
      rw [ih (c2 :: qr) (lev pr qr)]
      simp [List.append_assoc]

/-- The dynamic program computes the recursive edit distance (on reversed
inputs, since rows run over prefixes of the inputs). -/
lemma levRun_eq (s1 s2 : List Char) : levRun s1 s2 = lev s1.reverse s2.reverse := by
  unfold levRun
  split
  · rename_i h
    have : s2 = [] := List.length_eq_zero.mp h
    subst this
    simp
  · rw [range_eq_row s2]
    have h := levLoop_spec s2 s1 []
    simp only [List.length_nil, List.append_nil] at h
    rw [h, lastD_refRow s1.reverse s2 [] 0]
    simp

/-- The source `levenshtein_distance` computes the recursive edit distance
of the reversed arguments (hence of the arguments, up to symmetry). -/
lemma levenshtein_eq_lev (s1 s2 : List Char) :
    levenshtein_distance s1 s2 = lev s1.reverse s2.reverse := by
  unfold levenshtein_distance
  split
  · rw [levRun_eq, lev_symm]
  · rw [levRun_eq]

lemma levenshtein_le_max (s1 s2 : List Char) :
    levenshtein_distance s1 s2 ≤ max s1.length s2.length := by
  rw [levenshtein_eq_lev]
  have h := lev_le_max s1.reverse s2.reverse
  simpa using h

/-! ## `fuzzy_match` (main.py 40-63) -/

lemma startsWith_iff (p : List Char) :
    ∀ t : List Char, startsWith p t = true ↔ ∃ v, t = p ++ v := by
  induction p with
  | nil =>
      intro t
      simp only [startsWith, List.nil_append]
      exact ⟨fun _ => ⟨t, rfl⟩, fun _ => trivial⟩
  | cons a p ih =>
      intro t
      cases t with
      | nil =>
          simp [startsWith]
      | cons b t' =>
          simp only [startsWith, Bool.and_eq_true, beq_iff_eq]
          constructor
          · rintro ⟨rfl, h⟩
            obtain ⟨v, rfl⟩ := (ih t').mp h
            exact ⟨v, rfl⟩
          · rintro ⟨v, hv⟩
            rw [List.cons_append] at hv
            injection hv with h1 h2
            exact ⟨h1.symm, (ih t').mpr ⟨v, h2⟩⟩

lemma isSub_iff (p : List Char) :
    ∀ t : List Char, isSub p t = true ↔ ∃ u v, t = u ++ p ++ v := by
  intro t
  induction t with
  | nil =>
      simp only [isSub]
      rw [startsWith_iff]
      constructor
      · rintro ⟨v, hv⟩; exact ⟨[], v, by simpa using hv⟩
      · rintro ⟨u, v, huv⟩
        have hu : u = [] := by
          cases u with
          | nil => rfl
          | cons a u' => exact absurd huv (by simp)
        subst hu
        exact ⟨v, by simpa using huv⟩
  | cons c t' ih =>
      simp only [isSub, Bool.or_eq_true]
      rw [startsWith_iff]
      constructor
      · rintro (⟨v, hv⟩ | h)
        · exact ⟨[], v, by simpa using hv⟩
        · obtain ⟨u, v, huv⟩ := ih.mp h
          exact ⟨c :: u, v, by simp [huv]⟩
      · rintro ⟨u, v, huv⟩
        cases u with
        | nil =>
            left
            exact ⟨v, by simpa using huv⟩
        | cons d u' =>
            right
            rw [List.cons_append, List.cons_append] at huv
            injection huv with h1 h2
            exact ih.mpr ⟨u', v, by simpa using h2⟩

@[simp] lemma isSub_nil (t : List Char) : isSub [] t = true := by
  cases t with
  | nil => rfl
  | cons c t' => simp [isSub, startsWith]

/-- Every token produced by the splitter is a contiguous substring of the
split text (with the pending accumulator prepended). -/
lemma splitWsAux_sub : ∀ (l acc w : List Char),
    w ∈ splitWsAux l acc → ∃ u v, acc.reverse ++ l = u ++ w ++ v := by
  intro l
  induction l with
  | nil =>
      intro acc w hw
      simp only [splitWsAux] at hw
      split at hw
      · simp at hw
      · simp only [List.mem_singleton] at hw
        subst hw
        exact ⟨[], [], by simp⟩
  | cons c t ih =>
      intro acc w hw
      simp only [splitWsAux] at hw
      split at hw
      · split at hw
        · obtain ⟨u, v, huv⟩ := ih [] w hw
          simp only [List.reverse_nil, List.nil_append] at huv
          exact ⟨acc.reverse ++ c :: u, v, by simp [huv, List.append_assoc]⟩
        · rcases List.mem_cons.mp hw with rfl | hw'
          · exact ⟨[], c :: t, by simp⟩
          · obtain ⟨u, v, huv⟩ := ih [] w hw'
            simp only [List.reverse_nil, List.nil_append] at huv
            exact ⟨acc.reverse ++ c :: u, v, by simp [huv, List.append_assoc]⟩
      · obtain ⟨u, v, huv⟩ := ih (c :: acc) w hw
        simp only [List.reverse_cons] at huv
        exact ⟨u, v, by
          rw [show acc.reverse ++ c :: t = acc.reverse ++ [c] ++ t by simp, huv]⟩

lemma splitWs_sub {t w : List Char} (hw : w ∈ splitWs t) :
    ∃ u v, t = u ++ w ++ v := by
  have h := splitWsAux_sub t [] w hw
  simpa using h

/-- If the folded query occurs inside some whitespace token of the folded
text, it occurs in the folded text itself. -/
lemma token_sub_text {q t : List Char}
    (h : (splitWs t).any (fun w => isSub q w) = true) : isSub q t = true := by
  obtain ⟨w, hw, hsub⟩ := List.any_eq_true.mp h
  obtain ⟨u1, v1, h1⟩ := splitWs_sub hw
  obtain ⟨u2, v2, h2⟩ := (isSub_iff q w).mp hsub
  refine (isSub_iff q t).mpr ⟨u1 ++ u2, v2 ++ v1, ?_⟩
  rw [h1, h2]
  simp [List.append_assoc]

/-- The word ratio `1 - d/maxLen` lies in `[0,1]`: the distance never
exceeds the longer length. -/
lemma ratio_bounds (q w : List Char) :
    0 ≤ 1 - (levenshtein_distance q w : ℚ) / ((max q.length w.length : Nat) : ℚ) ∧
      1 - (levenshtein_distance q w : ℚ) / ((max q.length w.length : Nat) : ℚ) ≤ 1 := by
  constructor
  · by_cases hM : max q.length w.length = 0
    · have hd : levenshtein_distance q w = 0 :=
        Nat.le_zero.mp (hM ▸ levenshtein_le_max q w)
      rw [hd, hM]
      norm_num
    · have hMpos : (0:ℚ) < ((max q.length w.length : Nat) : ℚ) := by
        exact_mod_cast Nat.pos_of_ne_zero hM
      have hle : (levenshtein_distance q w : ℚ) ≤ ((max q.length w.length : Nat) : ℚ) := by
        exact_mod_cast levenshtein_le_max q w
      have h := (div_le_one hMpos).mpr hle
      linarith
  · have h : (0:ℚ) ≤ (levenshtein_distance q w : ℚ) / ((max q.length w.length : Nat) : ℚ) :=
      div_nonneg (Nat.cast_nonneg _) (Nat.cast_nonneg _)
    linarith

lemma maxScoreLoop_bounds (q : List Char) :
    ∀ (ws : List (List Char)) (m : ℚ), 0 ≤ m → m ≤ 1 →
      0 ≤ maxScoreLoop q ws m ∧ maxScoreLoop q ws m ≤ 1 := by
  intro ws
  induction ws with
  | nil => intro m h0 h1; exact ⟨h0, h1⟩
  | cons w ws ih =>
      intro m h0 h1
      by_cases hlen : q.length ≤ w.length
      · simp only [maxScoreLoop, if_pos hlen]
        refine ih _ ?_ ?_
        · split
          · exact (ratio_bounds q w).1
          · exact h0
        · split
          · exact (ratio_bounds q w).2
          · exact h1
      · simp only [maxScoreLoop, if_neg hlen]
        exact ih m h0 h1

lemma fuzzy_match_nonneg (q t : List Char) (th : ℚ) : 0 ≤ fuzzy_match q t th := by
  unfold fuzzy_match
  split_ifs with h1 h2 h3
  · norm_num
  · norm_num
  · exact (maxScoreLoop_bounds _ _ 0 le_rfl zero_le_one).1
  · exact le_rfl

lemma fuzzy_match_le_one (q t : List Char) (th : ℚ) : fuzzy_match q t th ≤ 1 := by
  unfold fuzzy_match
  split_ifs with h1 h2 h3
  · exact le_rfl
  · norm_num
  · exact (maxScoreLoop_bounds _ _ 0 le_rfl zero_le_one).2
  · norm_num

/-- Claim C8: `FieldMatcher.score` is a total function whose value always
lies in the closed interval `[0, 1]`, for every query, text and threshold;
in particular the fallback ratio `1 - distance/maxLen` is never negative
because the edit distance never exceeds the longer string's length. -/
theorem c8_score_total_in_unit_interval (q t : List Char) (th : ℚ) :
    0 ≤ fuzzy_match q t th ∧ fuzzy_match q t th ≤ 1 :=
  ⟨fuzzy_match_nonneg q t th, fuzzy_match_le_one q t th⟩

/-- Claim C9: with the default threshold 3/10, `FieldMatcher.score` returns
either exactly 0 or a value at least 7/10; no score strictly between them
occurs. -/
theorem c9_default_threshold_score_gap (q t : List Char) :
    fuzzy_match q t (3/10) = 0 ∨ (7/10 : ℚ) ≤ fuzzy_match q t (3/10) := by
  unfold fuzzy_match
  split_ifs with h1 h2 h3
  · right; norm_num
  · right; norm_num
  · right; linarith [h3]
  · left; rfl

/-- Claim C6: if the case-folded query is a substring of the case-folded
text, `FieldMatcher.score` returns exactly 1; in particular the empty
query scores 1 against every text. -/
theorem c6_whole_text_substring_scores_one (q t : List Char) (th : ℚ) :
    (isSub (fold q) (fold t) = true → fuzzy_match q t th = 1) ∧
      fuzzy_match [] t th = 1 := by
  constructor
  · intro h
    unfold fuzzy_match
    rw [if_pos h]
  · unfold fuzzy_match
    rw [if_pos (by simp [fold])]

theorem c6_whole_text_substring_scores_one_witness :
    fuzzy_match "cat".toList "a cat store".toList (3/10) = 1 ∧
      fuzzy_match [] "a cat store".toList (3/10) = 1 :=
  ⟨(c6_whole_text_substring_scores_one "cat".toList "a cat store".toList (3/10)).1
      (by decide),
    (c6_whole_text_substring_scores_one "cat".toList "a cat store".toList (3/10)).2⟩

/-- Claim C2: the token-substring shortcut of `fuzzy_match` is unreachable:
every whitespace token of the folded text is a substring of the folded
text, so whenever the folded query occurs in a token, the earlier
whole-text check already returns 1, and the 9/10 return is never taken. -/
theorem c2_token_shortcut_unreachable (q t : List Char) (th : ℚ)
    (h : (splitWs (fold t)).any (fun w => isSub (fold q) w) = true) :
    fuzzy_match q t th = 1 := by
  unfold fuzzy_match
  rw [if_pos (token_sub_text h)]

theorem c2_token_shortcut_unreachable_witness :
    (splitWs (fold "concatenation".toList)).any
        (fun w => isSub (fold "cat".toList) w) = true ∧
      fuzzy_match "cat".toList "concatenation".toList (3/10) = 1 :=
  ⟨by decide,
    c2_token_shortcut_unreachable "cat".toList "concatenation".toList (3/10)
      (by decide)⟩

/-- Claim C1, counterexample: on query "cat" and text "concatenate" with
the default threshold, `fuzzy_match` does NOT return 9/10 (it returns 1:
the folded query is a substring of the whole folded text, so the first
rule fires before the token rule can). -/
theorem c1_counterexample_cat_concatenate :
    fuzzy_match "cat".toList "concatenate".toList (3/10) ≠ 9/10 := by
  have h : fuzzy_match "cat".toList "concatenate".toList (3/10) = 1 := by
    unfold fuzzy_match
    rw [if_pos (by decide)]
  rw [h]
  norm_num

/-- Claim C1 as amended: `score("cat", "concatenate")` with the default
threshold returns exactly 1, via the rule that a folded query contained in
the whole folded text scores 1 ("cat" occurs inside the single token
"concatenate", hence inside the whole text). -/
theorem c1_amended_cat_concatenate_scores_one :
    fuzzy_match "cat".toList "concatenate".toList (3/10) = 1 := by
  unfold fuzzy_match
  rw [if_pos (by decide)]

/-! ## `fuzzy_search` (main.py 66-77) -/

lemma totalScore_nonneg (q : List Char) (th : ℚ) (g : Record) :
    0 ≤ totalScore q th g :=
  le_trans (fuzzy_match_nonneg q g.name th) (le_max_left _ _)

lemma ordIns_perm (x : Record × ℚ) :
    ∀ l : List (Record × ℚ), List.Perm (ordIns x l) (x :: l) := by
  intro l
  induction l with
  | nil => exact List.Perm.refl _
  | cons y l ih =>
      simp only [ordIns]
      split
      · exact List.Perm.refl _
      · exact List.Perm.trans (List.Perm.cons y ih) (List.Perm.swap x y l)

lemma sortD_perm : ∀ l : List (Record × ℚ), List.Perm (sortD l) l := by
  intro l
  induction l with
  | nil => exact List.Perm.refl _
  | cons x l ih =>
      exact List.Perm.trans (ordIns_perm x (sortD l)) (List.Perm.cons x ih)

lemma mem_ordIns {z x : Record × ℚ} {l : List (Record × ℚ)}
    (h : z ∈ ordIns x l) : z ∈ x :: l :=
  (ordIns_perm x l).mem_iff.mp h

lemma ordIns_pairwise (x : Record × ℚ) :
    ∀ l : List (Record × ℚ),
      l.Pairwise (fun a b => b.2 ≤ a.2) →
      (ordIns x l).Pairwise (fun a b => b.2 ≤ a.2) := by
  intro l
  induction l with
  | nil => intro _; simp [ordIns]
  | cons y l ih =>
      intro h
      rw [List.pairwise_cons] at h
      obtain ⟨hy, hl⟩ := h
      simp only [ordIns]
      split
      · rename_i hle
        rw [List.pairwise_cons]
        refine ⟨?_, List.pairwise_cons.mpr ⟨hy, hl⟩⟩
        intro z hz
        rcases List.mem_cons.mp hz with rfl | hz'
        · exact hle
        · exact le_trans (hy z hz') hle
      · rename_i hgt
        rw [List.pairwise_cons]
        refine ⟨?_, ih hl⟩
        intro z hz
        rcases List.mem_cons.mp (mem_ordIns hz) with rfl | hz'
        · exact le_of_lt (lt_of_not_le hgt)
        · exact hy z hz'

lemma sortD_pairwise : ∀ l : List (Record × ℚ),
    (sortD l).Pairwise (fun a b => b.2 ≤ a.2) := by
  intro l
  induction l with
  | nil => simp [sortD]
  | cons x l ih => exact ordIns_pairwise x (sortD l) ih

lemma ordIns_filter_pos (v : ℚ) (x : Record × ℚ) (hx : x.2 = v) :
    ∀ l : List (Record × ℚ),
      (ordIns x l).filter (fun p => decide (p.2 = v))
        = x :: l.filter (fun p => decide (p.2 = v)) := by
  intro l
  induction l with
  | nil => simp [ordIns, List.filter, hx]
  | cons y l ih =>
      simp only [ordIns]
      split
      · simp [List.filter, hx]
      · rename_i hgt
        have hyv : ¬ y.2 = v := by
          intro hv
          exact hgt (le_of_eq (hv.trans hx.symm))
        simp only [List.filter_cons]
        rw [if_neg (by simpa using hyv), if_neg (by simpa using hyv), ih]

lemma ordIns_filter_neg (v : ℚ) (x : Record × ℚ) (hx : ¬ x.2 = v) :
    ∀ l : List (Record × ℚ),
      (ordIns x l).filter (fun p => decide (p.2 = v))
        = l.filter (fun p => decide (p.2 = v)) := by
  intro l
  induction l with
  | nil => simp [ordIns, List.filter, hx]
  | cons y l ih =>
      simp only [ordIns]
      split
      · simp only [List.filter_cons]
        rw [if_neg (by simpa using hx)]
      · simp only [List.filter_cons]
        by_cases hy : y.2 = v
        · rw [if_pos (by simpa using hy), if_pos (by simpa using hy), ih]
        · rw [if_neg (by simpa using hy), if_neg (by simpa using hy), ih]

/-- Stability of the sort: filtering at any one score value commutes with
sorting, i.e. entries of equal score keep their relative order. -/
lemma sortD_filter_eq (v : ℚ) : ∀ l : List (Record × ℚ),
    (sortD l).filter (fun p => decide (p.2 = v))
      = l.filter (fun p => decide (p.2 = v)) := by
  intro l
  induction l with
  | nil => rfl
  | cons x l ih =>
      show (ordIns x (sortD l)).filter _ = _
      by_cases hx : x.2 = v
      · rw [ordIns_filter_pos v x hx (sortD l), ih]
        simp [List.filter_cons, hx]
      · rw [ordIns_filter_neg v x hx (sortD l), ih]
        simp [List.filter_cons, hx]

lemma map_fst_filterMap (q : List Char) (th : ℚ) : ∀ rs : List Record,
    (rs.filterMap (scoreEntry q th)).map Prod.fst
      = rs.filter (fun g => decide (0 < totalScore q th g)) := by
  intro rs
  induction rs with
  | nil => rfl
  | cons g rs ih =>
      by_cases h : 0 < totalScore q th g
      · have hs : scoreEntry q th g = some (g, totalScore q th g) := if_pos h
        simp only [List.filterMap_cons, hs, List.filter_cons, List.map_cons]
        rw [if_pos (by simpa using h), ih]
      · have hs : scoreEntry q th g = none := if_neg h
        simp only [List.filterMap_cons, hs, List.filter_cons]
        rw [if_neg (by simpa using h), ih]

lemma snd_eq_total (q : List Char) (th : ℚ) (rs : List Record) :
    ∀ p ∈ rs.filterMap (scoreEntry q th), p.2 = totalScore q th p.1 := by
  intro p hp
  obtain ⟨g, hg, hsome⟩ := List.mem_filterMap.mp hp
  unfold scoreEntry at hsome
  split at hsome
  · cases hsome; rfl
  · cases hsome

/-- Claim C4: every scored entry produced by the ranking loop carries the
aggregate score `max(nameScore, descriptionScore * 0.7)`; consequently a
record matching only on description (name score 0) scores exactly 0.7
times what its description text scores. -/
theorem c4_aggregate_score_formula (q : List Char) (th : ℚ) (rs : List Record)
    (p : Record × ℚ) (hp : p ∈ rs.filterMap (scoreEntry q th)) :
    p.2 = max (fuzzy_match q p.1.name th)
        (fuzzy_match q (p.1.description.getD []) th * (7/10)) ∧
      (fuzzy_match q p.1.name th = 0 →
        p.2 = (7/10) * fuzzy_match q (p.1.description.getD []) th) := by
  have h := snd_eq_total q th rs p hp
  constructor
  · rw [h]; rfl
  · intro h0
    rw [h]
    unfold totalScore
    rw [h0]
    rw [max_eq_right (mul_nonneg (fuzzy_match_nonneg _ _ _) (by norm_num))]
    ring

/-- Claim C5: a record appears in the output of the ranking exactly when it
is an input record whose aggregate score is not 0. -/
theorem c5_rank_keeps_iff_nonzero (q : List Char) (th : ℚ) (rs : List Record)
    (g : Record) :
    g ∈ fuzzy_search q rs th ↔ (g ∈ rs ∧ totalScore q th g ≠ 0) := by
  unfold fuzzy_search
  have hperm := (sortD_perm (rs.filterMap (scoreEntry q th))).map Prod.fst
  rw [hperm.mem_iff, map_fst_filterMap q th rs, List.mem_filter]
  constructor
  · rintro ⟨hmem, hdec⟩
    exact ⟨hmem, ne_of_gt (of_decide_eq_true hdec)⟩
  · rintro ⟨hmem, hne⟩
    exact ⟨hmem,
      decide_eq_true (lt_of_le_of_ne (totalScore_nonneg q th g) (Ne.symm hne))⟩

/-- Claim C10: the ranking output is a permutation of exactly the input
records with positive aggregate score, and is never longer than the
input. -/
theorem c10_rank_perm_filter (q : List Char) (th : ℚ) (rs : List Record) :
    List.Perm (fuzzy_search q rs th)
        (rs.filter (fun g => decide (0 < totalScore q th g))) ∧
      (fuzzy_search q rs th).length ≤ rs.length := by
  have hperm := (sortD_perm (rs.filterMap (scoreEntry q th))).map Prod.fst
  constructor
  · unfold fuzzy_search
    rw [← map_fst_filterMap q th rs]
    exact hperm
  · calc (fuzzy_search q rs th).length
        = ((rs.filterMap (scoreEntry q th)).map Prod.fst).length := hperm.length_eq
      _ = (rs.filter (fun g => decide (0 < totalScore q th g))).length := by
          rw [map_fst_filterMap]
      _ ≤ rs.length := List.length_filter_le _ _

/-- Claim C3: the ranking output is sorted by aggregate score in descending
order, and, for any score value `v ≠ 0`, the output records of score `v`
are exactly the input records of score `v` in their original input order
(stability of the sort). -/
theorem c3_rank_sorted_stable (q : List Char) (th : ℚ) (rs : List Record) :
    (fuzzy_search q rs th).Pairwise
        (fun a b => totalScore q th b ≤ totalScore q th a) ∧
      ∀ v : ℚ, v ≠ 0 →
        (fuzzy_search q rs th).filter (fun g => decide (totalScore q th g = v))
          = rs.filter (fun g => decide (totalScore q th g = v)) := by
  have hmemS : ∀ p ∈ sortD (rs.filterMap (scoreEntry q th)),
      p.2 = totalScore q th p.1 := by
    intro p hp
    exact snd_eq_total q th rs p ((sortD_perm _).mem_iff.mp hp)
  constructor
  · unfold fuzzy_search
    rw [List.pairwise_map]
    refine List.Pairwise.imp_of_mem ?_ (sortD_pairwise _)
    intro a b ha hb hr
    rw [← hmemS a ha, ← hmemS b hb]
    exact hr
  · intro v hv
    unfold fuzzy_search
    rw [List.filter_map]
    have e1 : (sortD (rs.filterMap (scoreEntry q th))).filter
          ((fun g => decide (totalScore q th g = v)) ∘ Prod.fst)
        = (sortD (rs.filterMap (scoreEntry q th))).filter
          (fun p => decide (p.2 = v)) := by
      refine List.filter_congr ?_
      intro a ha
      simp only [Function.comp_apply]
      rw [hmemS a ha]
    have e2 : (rs.filterMap (scoreEntry q th)).filter (fun p => decide (p.2 = v))
        = (rs.filterMap (scoreEntry q th)).filter
          ((fun g => decide (totalScore q th g = v)) ∘ Prod.fst) := by
      refine List.filter_congr ?_
      intro a ha
      simp only [Function.comp_apply]
      rw [snd_eq_total q th rs a ha]
    rw [e1, sortD_filter_eq v, e2, ← List.filter_map, map_fst_filterMap,
      List.filter_filter]
    refine List.filter_congr ?_
    intro g _
    by_cases hg : totalScore q th g = v
    · have hpos : 0 < totalScore q th g :=
        lt_of_le_of_ne (totalScore_nonneg q th g) (by rw [hg]; exact Ne.symm hv)
      have hposv : 0 < v := hg ▸ hpos
      simp [hg, hposv]
    · simp [hg]

/-- Claim C7: the edit distance of the source satisfies the triangle
inequality `distance(a,c) <= distance(a,b) + distance(b,c)`. -/
theorem c7_levenshtein_triangle (a b c : List Char) :
    levenshtein_distance a c ≤ levenshtein_distance a b + levenshtein_distance b c := by
  rw [levenshtein_eq_lev, levenshtein_eq_lev, levenshtein_eq_lev]
  exact lev_triangle a.reverse b.reverse c.reverse

theorem c3_rank_sorted_stable_witness :
    (fuzzy_search "cat".toList
          [⟨1, "a cat".toList, none⟩, ⟨2, "the cat".toList, none⟩] (3/10)).filter
        (fun g => decide (totalScore "cat".toList (3/10) g = 1))
      = [(⟨1, "a cat".toList, none⟩ : Record), ⟨2, "the cat".toList, none⟩].filter
        (fun g => decide (totalScore "cat".toList (3/10) g = 1)) :=
  (c3_rank_sorted_stable "cat".toList (3/10)
    [⟨1, "a cat".toList, none⟩, ⟨2, "the cat".toList, none⟩]).2 1 one_ne_zero

theorem c4_aggregate_score_formula_witness :
    ((⟨1, "x".toList, some "cat".toList⟩ : Record), (7/10 : ℚ)).2
        = max
          (fuzzy_match "cat".toList
            ((⟨1, "x".toList, some "cat".toList⟩ : Record), (7/10 : ℚ)).1.name (3/10))
          (fuzzy_match "cat".toList
            (((⟨1, "x".toList, some "cat".toList⟩ : Record),
              (7/10 : ℚ)).1.description.getD []) (3/10) * (7/10)) ∧
      ((⟨1, "x".toList, some "cat".toList⟩ : Record), (7/10 : ℚ)).2
        = (7/10) * fuzzy_match "cat".toList
            (((⟨1, "x".toList, some "cat".toList⟩ : Record),
              (7/10 : ℚ)).1.description.getD []) (3/10) := by
  have hname : fuzzy_match "cat".toList "x".toList (3/10) = 0 := by
    have hms : maxScoreLoop (fold "cat".toList) (splitWs (fold "x".toList)) 0 = 0 := by
      decide
    unfold fuzzy_match
    rw [if_neg (by decide), if_neg (by decide), hms, if_neg (by norm_num)]
  have hdesc : fuzzy_match "cat".toList "cat".toList (3/10) = 1 := by
    unfold fuzzy_match
    rw [if_pos (by decide)]
  have htot : totalScore "cat".toList (3/10) ⟨1, "x".toList, some "cat".toList⟩
      = 7/10 := by
    show max (fuzzy_match "cat".toList "x".toList (3/10))
        (fuzzy_match "cat".toList "cat".toList (3/10) * (7/10)) = 7/10
    rw [hname, hdesc]
    norm_num
  have hsome : scoreEntry "cat".toList (3/10) ⟨1, "x".toList, some "cat".toList⟩
      = some (⟨1, "x".toList, some "cat".toList⟩, 7/10) := by
    unfold scoreEntry
    rw [htot, if_pos (by norm_num)]
  have hp : ((⟨1, "x".toList, some "cat".toList⟩ : Record), (7/10 : ℚ))
      ∈ ([⟨1, "x".toList, some "cat".toList⟩] : List Record).filterMap
        (scoreEntry "cat".toList (3/10)) := by
    simp only [List.filterMap_cons, hsome, List.filterMap_nil]
    exact List.mem_singleton.mpr rfl
  exact ⟨(c4_aggregate_score_formula "cat".toList (3/10) _ _ hp).1,
    (c4_aggregate_score_formula "cat".toList (3/10) _ _ hp).2 hname⟩
